import Mathlib

/-!
Verification development for the LuminaBook PDF export pipeline.

The definitions below are a shallow embedding of the PDF generation code
(the professional variant of generatePDF together with its helpers
FORMATS, loadImage, the language heuristic, the smart chapter-header
logic, the body pagination loop and the filename slug).  Geometry is
modelled over the rationals; JavaScript strings are modelled as Lean
strings (lists of unicode scalar characters).  The case folding
performed by String.prototype.toLowerCase and the i regex flag is
modelled by a character map covering ASCII together with the accented
capitals that occur in the keyword patterns of the code.  I/O
boundaries (fetch plus FileReader, and jsPDF.splitTextToSize) are
modelled as explicit function parameters; drawing calls are recorded in
an event trace.
-/

namespace LuminaBook

/-- Case folding for the characters relevant to the code: ASCII capitals
and the accented capitals Í (205) and Ó (211), all of which lower by
adding 32 to their code point. -/
def jsToLower (c : Char) : Char :=
  if (65 ≤ c.toNat ∧ c.toNat ≤ 90) ∨ c.toNat = 205 ∨ c.toNat = 211 then
    Char.ofNat (c.toNat + 32)
  else c

/-- Upper casing for the cover title, the inverse direction of jsToLower. -/
def jsToUpper (c : Char) : Char :=
  if (97 ≤ c.toNat ∧ c.toNat ≤ 122) ∨ c.toNat = 237 ∨ c.toNat = 243 then
    Char.ofNat (c.toNat - 32)
  else c

/-- Lower cased character list of a string, as the i regex flag sees it. -/
def lowerList (s : String) : List Char := s.data.map jsToLower

/-- Upper cased string, modelling String.prototype.toUpperCase. -/
def jsUpper (s : String) : String := String.mk (s.data.map jsToUpper)

/-- Boolean test that the first list starts the second one. -/
def beginsWith : List Char → List Char → Bool
  | p :: ps, q :: qs => p == q && beginsWith ps qs
  | pat, _ => pat.isEmpty

/-- Boolean test that the first list occurs contiguously inside the second. -/
def containsSeq (needle : List Char) : List Char → Bool
  | [] => beginsWith needle []
  | c :: cs => beginsWith needle (c :: cs) || containsSeq needle cs

/-- Case insensitive substring test: the needle is given lower cased. -/
def containsCI (needle : String) (hay : String) : Bool :=
  containsSeq needle.data (lowerList hay)

/-- Case insensitive alternation test, modelling a regex of literal branches. -/
def matchesAnyCI (needles : List String) (hay : String) : Bool :=
  needles.any (fun n => containsCI n hay)

/-- Case insensitive anchored test, modelling new RegExp of a literal word
anchored at the start, with the i flag. -/
def startsWithCI (word : String) (title : String) : Bool :=
  beginsWith (lowerList word) (lowerList title)

/-- Margins of a page format, in millimeters. -/
structure Margin where
  top : ℚ
  bottom : ℚ
  x : ℚ
deriving DecidableEq

/-- Font sizes of a page format. -/
structure FontSizes where
  body : ℚ
  title : ℚ
  chapter : ℚ
deriving DecidableEq

/-- Entry of the FORMATS catalog of the code. -/
structure PageFormat where
  width : ℚ
  height : ℚ
  margin : Margin
  fontSize : FontSizes
  lineHeight : ℚ
deriving DecidableEq

/-- The pocket entry of FORMATS: 5 by 8 inches. -/
def pocketFormat : PageFormat :=
  ⟨127, 203.2, ⟨15, 15, 12⟩, ⟨11, 18, 12⟩, 5⟩

/-- The letter entry of FORMATS: 8.5 by 11 inches. -/
def letterFormat : PageFormat :=
  ⟨215.9, 279.4, ⟨25.4, 25.4, 25.4⟩, ⟨12, 24, 16⟩, 7⟩

/-- The a4 entry of FORMATS. -/
def a4Format : PageFormat :=
  ⟨210, 297, ⟨25.4, 25.4, 25.4⟩, ⟨12, 24, 16⟩, 7⟩

/-- The FORMATS record of the code, as a key value list. -/
def FORMATS : List (String × PageFormat) :=
  [("pocket", pocketFormat), ("letter", letterFormat), ("a4", a4Format)]

/-- Property access FORMATS of key, returning undefined as none. -/
def formatsLookup (key : String) : Option PageFormat :=
  List.lookup key FORMATS

/-- Chapter entity of the data model. -/
structure Chapter where
  id : String
  title : String
  content : String
  summary : Option String
  imagePrompt : Option String
  imageUrl : Option String
deriving DecidableEq

/-- EBook entity of the data model.  The theme field is omitted: the PDF
generation code never reads it. -/
structure EBook where
  title : String
  author : String
  authorBio : Option String
  authorImageUrl : Option String
  description : String
  coverImagePrompt : Option String
  coverImageUrl : Option String
  backCoverImagePrompt : Option String
  backCoverImageUrl : Option String
  chapters : List Chapter
deriving DecidableEq

/-- Export configuration: the page size key (absent when the caller did not
set one) and the bleed flag.  The format field for pdf, epub or kpf is
omitted: generatePDF never reads it. -/
structure ExportConfig where
  pageSize : Option String
  bleed : Bool
deriving DecidableEq

/-- JavaScript defaulting on an optional string field, modelling the
expression field or default: undefined and the empty string are falsy. -/
def jsOr (o : Option String) (d : String) : String :=
  match o with
  | none => d
  | some s => if s = "" then d else s

/-- JavaScript defaulting on a required string field. -/
def jsOrStr (s : String) (d : String) : String :=
  if s = "" then d else s

/-- JavaScript truthiness of an optional string. -/
def jsTruthy (o : Option String) : Bool :=
  match o with
  | none => false
  | some s => !(s == "")

/-- Branch on the truthiness of an optional string, modelling an if on a
value of type string or null. -/
def jsCase {α : Type} (o : Option String) (f : String → α) (d : α) : α :=
  match o with
  | none => d
  | some s => if s = "" then d else f s

/-- The formatKey of the code: config.pageSize defaulted to a4. -/
def formatKey (config : ExportConfig) : String :=
  jsOr config.pageSize "a4"

/-- Format resolution of the code: FORMATS at formatKey, defaulted to the a4
entry when the key is unknown. -/
def resolveFormat (config : ExportConfig) : PageFormat :=
  (formatsLookup (formatKey config)).getD a4Format

/-- Effective horizontal margin: the catalog margin, plus 5 when bleed. -/
def marginXOf (config : ExportConfig) : ℚ :=
  if config.bleed then (resolveFormat config).margin.x + 5
  else (resolveFormat config).margin.x

/-- Effective top margin: the catalog margin, plus 5 when bleed. -/
def marginTopOf (config : ExportConfig) : ℚ :=
  if config.bleed then (resolveFormat config).margin.top + 5
  else (resolveFormat config).margin.top

/-- Effective bottom margin: the catalog margin, plus 5 when bleed. -/
def marginBottomOf (config : ExportConfig) : ℚ :=
  if config.bleed then (resolveFormat config).margin.bottom + 5
  else (resolveFormat config).margin.bottom

/-- Physical page dimensions passed to the jsPDF constructor. -/
def openedPageSize (config : ExportConfig) : ℚ × ℚ :=
  ((resolveFormat config).width, (resolveFormat config).height)

/-- The loadImage helper.  The parameter fetchRead models the awaited fetch,
blob and FileReader pipeline for a given url: an error value is an
exception thrown inside the try block, an ok none is a reader failure that
resolved null.  An empty url returns none without consulting the pipeline;
a thrown exception is caught and becomes none. -/
def loadImage (fetchRead : String → Except String (Option String))
    (url : String) : Option String :=
  if url = "" then none
  else
    match fetchRead url with
    | Except.ok r => r
    | Except.error _ => none

/-- Lower case hexadecimal digit, for JSON control character escapes. -/
def hexDigit (n : Nat) : Char :=
  if n < 10 then Char.ofNat (48 + n) else Char.ofNat (87 + n)

/-- JSON string escaping of one character, as JSON.stringify performs it. -/
def escChar (c : Char) : List Char :=
  if c.toNat = 34 then ['\\', '"']
  else if c.toNat = 92 then ['\\', '\\']
  else if c.toNat = 8 then ['\\', 'b']
  else if c.toNat = 9 then ['\\', 't']
  else if c.toNat = 10 then ['\\', 'n']
  else if c.toNat = 12 then ['\\', 'f']
  else if c.toNat = 13 then ['\\', 'r']
  else if c.toNat < 32 then
    ['\\', 'u', '0', '0', hexDigit (c.toNat / 16), hexDigit (c.toNat % 16)]
  else [c]

/-- JSON string escaping of a character list. -/
def escList : List Char → List Char
  | [] => []
  | c :: cs => escChar c ++ escList cs

/-- JSON string escaping of a string. -/
def jsonEscape (s : String) : String := String.mk (escList s.data)

/-- JSON.stringify of one chapter object: required fields in declaration
order, optional fields omitted when undefined. -/
def jsonStringifyChapter (c : Chapter) : String :=
  "\x7b\"id\":\"" ++ jsonEscape c.id
    ++ "\",\"title\":\"" ++ jsonEscape c.title
    ++ "\",\"content\":\"" ++ jsonEscape c.content ++ "\""
    ++ (match c.summary with
        | none => ""
        | some s => ",\"summary\":\"" ++ jsonEscape s ++ "\"")
    ++ (match c.imagePrompt with
        | none => ""
        | some s => ",\"imagePrompt\":\"" ++ jsonEscape s ++ "\"")
    ++ (match c.imageUrl with
        | none => ""
        | some s => ",\"imageUrl\":\"" ++ jsonEscape s ++ "\"")
    ++ "\x7d"

/-- Comma joined array elements of a JSON array body. -/
def jsonArrayJoin : List String → String
  | [] => ""
  | [s] => s
  | s :: rest => s ++ "," ++ jsonArrayJoin rest

/-- JSON.stringify of the chapters array. -/
def jsonStringifyChapters (chs : List Chapter) : String :=
  "[" ++ jsonArrayJoin (chs.map jsonStringifyChapter) ++ "]"

/-- Lower cased branches of the Spanish detection regex: the bracket
alternatives of capitulo and of prol expand to the accented and the plain
spelling. -/
def spanishNeedles : List String :=
  ["capitulo", "capítulo", "introducc", "prol", "pról"]

/-- Language heuristic of the code: the Spanish regex tested against
JSON.stringify of the entire chapters array. -/
def isSpanish (chapters : List Chapter) : Bool :=
  matchesAnyCI spanishNeedles (jsonStringifyChapters chapters)

/-- Header word chosen once per document from the language heuristic. -/
def chapterWord (chapters : List Chapter) : String :=
  if isSpanish chapters then "Capítulo" else "Chapter"

/-- Special section test of the code: the keyword regex tested against the
chapter title, an unanchored case insensitive substring match. -/
def isSpecial (title : String) : Bool :=
  matchesAnyCI ["intro", "prologue", "prólogo", "preface", "prefacio"] title

/-- Smart header logic for one chapter: a special title draws nothing and
keeps the count; otherwise the count increments and the header line is
drawn unless the title itself already starts with the header word. -/
def headerStep (word : String) (count : Nat) (title : String) :
    Option String × Nat :=
  if isSpecial title then (none, count)
  else if startsWithCI word title then (none, count + 1)
  else (some (word ++ " " ++ toString (count + 1)), count + 1)

/-- Header lines produced by the chapter loop from a given running count. -/
def headersFrom (word : String) (count : Nat) : List String → List (Option String)
  | [] => []
  | t :: ts =>
    (headerStep word count t).1 :: headersFrom word (headerStep word count t).2 ts

/-- Header lines of a document, with the running count starting at zero. -/
def chapterHeaders (word : String) (titles : List String) : List (Option String) :=
  headersFrom word 0 titles

/-- Header lines of a book, with the header word chosen by the language
heuristic over the whole chapters array. -/
def bookChapterHeaders (chapters : List Chapter) : List (Option String) :=
  chapterHeaders (chapterWord chapters) (chapters.map Chapter.title)

/-- Replacement step of the slug regex: characters outside the case
insensitive class of letters and digits become an underscore. -/
def keepAlnumCI (c : Char) : Char :=
  if (97 ≤ c.toNat ∧ c.toNat ≤ 122) ∨ (65 ≤ c.toNat ∧ c.toNat ≤ 90)
      ∨ (48 ≤ c.toNat ∧ c.toNat ≤ 57) then c
  else '_'

/-- The safeTitle of the code: default the title to book, replace, then
lower case. -/
def safeTitle (title : String) : String :=
  String.mk (((jsOrStr title "book").data.map keepAlnumCI).map jsToLower)

/-- File name passed to doc.save. -/
def saveFilename (book : EBook) (config : ExportConfig) : String :=
  safeTitle book.title ++ "_" ++ formatKey config ++ ".pdf"

/-- Drawing level events recorded by the embedding of generatePDF.  Styling
calls with no geometric or textual content, such as font, color and
opacity selection, are not traced. -/
inductive PaintEvent where
  | addPage : PaintEvent
  | rectFill (r g b : Nat) (x y w h : ℚ) : PaintEvent
  | rectStroke (x y w h : ℚ) : PaintEvent
  | image (dat : String) (x y w h : ℚ) : PaintEvent
  | text (s : String) (x y : ℚ) (center : Bool) : PaintEvent
  | textLines (lines : List String) (x y : ℚ) (center : Bool) : PaintEvent
  | wrapCall (s : String) (w : ℚ) : PaintEvent
  | save (filename : String) : PaintEvent
deriving DecidableEq

/-- Body flow loop of a chapter: before each wrapped line the cursor is
tested against the bottom margin; on overflow a page is added and the
cursor resets to the top margin, then the line is drawn and the cursor
advances by the line height. -/
def paintBody (mTop mBot h lh mX : ℚ) : ℚ → List String → List PaintEvent
  | _, [] => []
  | y, line :: rest =>
    if h - mBot < y + lh then
      PaintEvent.addPage :: PaintEvent.text line mX mTop false ::
        paintBody mTop mBot h lh mX (mTop + lh) rest
    else
      PaintEvent.text line mX y false ::
        paintBody mTop mBot h lh mX (y + lh) rest

/-- Painting of one chapter: new page, optional banner image, smart header,
wrapped title, then the paginated body.  Returns the events together with
the updated running chapter count. -/
def paintChapter (fetchRead : String → Except String (Option String))
    (split : String → ℚ → List String) (fmt : PageFormat)
    (mX mTop mBot : ℚ) (word : String) (count : Nat) (ch : Chapter) :
    List PaintEvent × Nat :=
  let contentW := fmt.width - mX * 2
  let chapImg := loadImage fetchRead (jsOr ch.imageUrl "")
  let imgPart : List PaintEvent × ℚ :=
    jsCase chapImg
      (fun d => ([PaintEvent.image d mX mTop contentW (contentW / 3)],
                 mTop + contentW / 3 + 10))
      ([], mTop)
  let hs := headerStep word count ch.title
  let hdrEvents : List PaintEvent :=
    match hs.1 with
    | some s => [PaintEvent.text s mX imgPart.2 false]
    | none => []
  let cursor2 : ℚ :=
    match hs.1 with
    | some _ => imgPart.2 + 8
    | none => imgPart.2
  let titleLines := split ch.title contentW
  let cursor3 := cursor2 + (titleLines.length : ℚ) * 10 + 10
  (PaintEvent.addPage :: imgPart.1 ++ hdrEvents
     ++ [PaintEvent.wrapCall ch.title contentW,
         PaintEvent.textLines titleLines mX cursor2 false]
     ++ PaintEvent.wrapCall ch.content contentW ::
        paintBody mTop mBot fmt.height fmt.lineHeight mX cursor3
          (split ch.content contentW),
   hs.2)

/-- Chapter loop of generatePDF, threading the running chapter count. -/
def paintChapters (fetchRead : String → Except String (Option String))
    (split : String → ℚ → List String) (fmt : PageFormat)
    (mX mTop mBot : ℚ) (word : String) : Nat → List Chapter → List PaintEvent
  | _, [] => []
  | count, ch :: rest =>
    (paintChapter fetchRead split fmt mX mTop mBot word count ch).1
      ++ paintChapters fetchRead split fmt mX mTop mBot word
          (paintChapter fetchRead split fmt mX mTop mBot word count ch).2 rest

/-- Front cover section: full bleed image with dark overlays when the cover
image resolved, else the solid dark fallback background, then the shadowed
title, the author line and the edition line. -/
def coverEvents (fetchRead : String → Except String (Option String))
    (split : String → ℚ → List String) (book : EBook)
    (config : ExportConfig) : List PaintEvent :=
  let fmt := resolveFormat config
  let mX := marginXOf config
  let coverImage := loadImage fetchRead (jsOr book.coverImageUrl "")
  let imgPart : List PaintEvent :=
    jsCase coverImage
      (fun d => [PaintEvent.image d 0 0 fmt.width fmt.height,
                 PaintEvent.rectFill 0 0 0 0 0 fmt.width (fmt.height * 0.35),
                 PaintEvent.rectFill 0 0 0 0 (fmt.height * 0.8) fmt.width
                   (fmt.height * 0.2)])
      [PaintEvent.rectFill 15 23 42 0 0 fmt.width fmt.height]
  let titleLines := split (jsUpper book.title) (fmt.width - mX * 2)
  let titleY := fmt.height * 0.15
  let authorY := fmt.height * 0.9
  imgPart
    ++ [PaintEvent.wrapCall (jsUpper book.title) (fmt.width - mX * 2),
        PaintEvent.textLines titleLines (fmt.width / 2 + 0.2) (titleY + 0.2) true,
        PaintEvent.textLines titleLines (fmt.width / 2 + 0.4) (titleY + 0.4) true,
        PaintEvent.textLines titleLines (fmt.width / 2 + 0.6) (titleY + 0.6) true,
        PaintEvent.textLines titleLines (fmt.width / 2 + 0.8) (titleY + 0.8) true,
        PaintEvent.textLines titleLines (fmt.width / 2) titleY true,
        PaintEvent.text (jsOrStr book.author "Author Name") (fmt.width / 2)
          authorY true,
        PaintEvent.text "LuminaBook Edition" (fmt.width / 2) (authorY + 8) true]

/-- Title page section: centered title and author line. -/
def titlePageEvents (book : EBook) (config : ExportConfig) : List PaintEvent :=
  let fmt := resolveFormat config
  [PaintEvent.addPage,
   PaintEvent.text book.title (fmt.width / 2) (fmt.height * 0.4) true,
   PaintEvent.text ("by " ++ book.author) (fmt.width / 2)
     (fmt.height * 0.4 + 20) true]

/-- Author info section: emitted only when the author image url or the bio
is truthy; a framed square portrait when the image resolved, else the
cursor simply advances, then the heading and the wrapped bio. -/
def authorPageEvents (fetchRead : String → Except String (Option String))
    (split : String → ℚ → List String) (book : EBook)
    (config : ExportConfig) : List PaintEvent :=
  let fmt := resolveFormat config
  let mX := marginXOf config
  let mTop := marginTopOf config
  if jsTruthy book.authorImageUrl || jsTruthy book.authorBio then
    let authorImg := loadImage fetchRead (jsOr book.authorImageUrl "")
    let imgPart : List PaintEvent × ℚ :=
      jsCase authorImg
        (fun d => ([PaintEvent.image d ((fmt.width - 60) / 2) mTop 60 60,
                    PaintEvent.rectStroke ((fmt.width - 60) / 2) mTop 60 60],
                   mTop + 60 + 15))
        ([], mTop + 20)
    let bio := jsOr book.authorBio "Author bio not provided."
    PaintEvent.addPage :: imgPart.1
      ++ [PaintEvent.text "About the Author" (fmt.width / 2) imgPart.2 true,
          PaintEvent.wrapCall bio (fmt.width - mX * 3),
          PaintEvent.textLines (split bio (fmt.width - mX * 3)) (fmt.width / 2)
            (imgPart.2 + 15) true]
  else []

/-- Back cover section: full bleed image with the dark blurb box when the
back cover image resolved, else the plain dark fallback background, then
the heading, the wrapped description, the barcode block and the imprint. -/
def backCoverEvents (fetchRead : String → Except String (Option String))
    (split : String → ℚ → List String) (book : EBook)
    (config : ExportConfig) : List PaintEvent :=
  let fmt := resolveFormat config
  let backImg := loadImage fetchRead (jsOr book.backCoverImageUrl "")
  let imgPart : List PaintEvent :=
    jsCase backImg
      (fun d => [PaintEvent.image d 0 0 fmt.width fmt.height,
                 PaintEvent.rectFill 10 10 10
                   ((fmt.width - fmt.width * 0.7) / 2 - 5)
                   ((fmt.height - fmt.height * 0.5) / 2 - 5)
                   (fmt.width * 0.7 + 10) (fmt.height * 0.5 + 10)])
      [PaintEvent.rectFill 20 20 20 0 0 fmt.width fmt.height]
  let blurb := jsOrStr book.description "No description available."
  PaintEvent.addPage :: imgPart
    ++ [PaintEvent.text "ABOUT THE BOOK" (fmt.width / 2) (fmt.height * 0.3) true,
        PaintEvent.wrapCall blurb (fmt.width * 0.6),
        PaintEvent.textLines (split blurb (fmt.width * 0.6)) (fmt.width / 2)
          (fmt.height * 0.35) true,
        PaintEvent.rectFill 255 255 255 (fmt.width / 2 - 20) (fmt.height * 0.85)
          40 15,
        PaintEvent.text "LUMINABOOK PRESS" (fmt.width / 2)
          (fmt.height * 0.85 + 20) true]

/-- Whole document trace of generatePDF: cover, title page, optional author
page, the chapters in array order, the back cover, and the final save. -/
def generatePDF (fetchRead : String → Except String (Option String))
    (split : String → ℚ → List String) (book : EBook)
    (config : ExportConfig) : List PaintEvent :=
  coverEvents fetchRead split book config
    ++ titlePageEvents book config
    ++ authorPageEvents fetchRead split book config
    ++ paintChapters fetchRead split (resolveFormat config) (marginXOf config)
        (marginTopOf config) (marginBottomOf config)
        (chapterWord book.chapters) 0 book.chapters
    ++ backCoverEvents fetchRead split book config
    ++ [PaintEvent.save (saveFilename book config)]

/-- Text drawn by a single line drawing event. -/
def textOfEvent : PaintEvent → Option String
  | PaintEvent.text s _ _ _ => some s
  | _ => none

/-- Argument of a wrap invocation event. -/
def wrapArgOfEvent : PaintEvent → Option String
  | PaintEvent.wrapCall s _ => some s
  | _ => none

/-- Arguments of the wrap invocations of a trace, in order. -/
def wrapArgs (evs : List PaintEvent) : List String :=
  evs.filterMap wrapArgOfEvent

/-- Test for an image placement event. -/
def isImageEvent : PaintEvent → Bool
  | PaintEvent.image _ _ _ _ _ => true
  | _ => false

/-- Split on blank line boundaries, following the specification wording
that the caller splits content on blank line boundaries and wraps each
paragraph independently.  A boundary is a pair of consecutive newlines. -/
def specParagraphsAux (acc : List Char) : List Char → List String
  | [] => [String.mk acc.reverse]
  | '\n' :: '\n' :: rest => String.mk acc.reverse :: specParagraphsAux [] rest
  | c :: rest => specParagraphsAux (c :: acc) rest

/-- Paragraphs of a chapter content under the specification reading. -/
def specParagraphs (content : String) : List String :=
  specParagraphsAux [] content.data

/-- Title scan under the claim wording for language detection: the three
literal Spanish keyword patterns, accented as written in the
specification, tested case insensitively against one chapter title. -/
def titleMatchesSpecSpanish (title : String) : Bool :=
  matchesAnyCI ["capítulo", "introducc", "pról"] title

/-- Replacement step under the claim wording for the slug: characters
outside lower case letters and digits become an underscore. -/
def keepLowerAlnum (c : Char) : Char :=
  if (97 ≤ c.toNat ∧ c.toNat ≤ 122) ∨ (48 ≤ c.toNat ∧ c.toNat ≤ 57) then c
  else '_'

/-- Slug under the claim wording: default, lower case, then replace every
character outside lower case letters and digits. -/
def specSlug (title : String) : String :=
  String.mk (((jsOrStr title "book").data.map jsToLower).map keepLowerAlnum)

/-- The English chapter list of the specification example on numbering. -/
def exampleChaptersEN : List Chapter :=
  [⟨"1", "Prologue", "", none, none, none⟩,
   ⟨"2", "The Start", "", none, none, none⟩,
   ⟨"3", "Chapter 2: Escalation", "", none, none, none⟩,
   ⟨"4", "The End", "", none, none, none⟩]

/-- A chapter list whose titles are English while a content field holds a
Spanish word matched by the language regex. -/
def exampleChaptersES : List Chapter :=
  [⟨"c1", "The Start", "la introducción", none, none, none⟩]

/-- A chapter list with a Spanish title for the language heuristic. -/
def exampleChaptersTitleES : List Chapter :=
  [⟨"c9", "Capítulo Uno", "", none, none, none⟩]

/-- A chapter whose content holds two paragraphs separated by a blank
line boundary. -/
def exampleChapterPara : Chapter :=
  ⟨"p1", "A Quiet Morning", "First paragraph.\n\nSecond paragraph.",
   none, none, none⟩

/-- Image pipeline stub that always resolves to no image. -/
def fetchNone : String → Except String (Option String) :=
  fun _ => Except.ok none

/-- Wrap stub that returns its input as a single line. -/
def splitNone : String → ℚ → List String :=
  fun s _ => [s]

/-- A book with every optional field absent. -/
def book0 : EBook :=
  ⟨"", "", none, none, "", none, none, none, none, []⟩

/-- A configuration with no page size key and no bleed. -/
def config0 : ExportConfig := ⟨none, false⟩

/-- Running chapter count left by the loop after a list of titles. -/
def countAfter (word : String) (c : Nat) (ts : List String) : Nat :=
  ts.foldl (fun k t => (headerStep word k t).2) c

theorem headerStep_snd (word : String) (c : Nat) (t : String) :
    (headerStep word c t).2 = if isSpecial t then c else c + 1 := by
  by_cases hsp : isSpecial t <;> by_cases hsw : startsWithCI word t <;>
    simp [headerStep, hsp, hsw]

theorem headersFrom_append (word : String) :
    ∀ (xs ys : List String) (c : Nat),
      headersFrom word c (xs ++ ys) =
        headersFrom word c xs ++ headersFrom word (countAfter word c xs) ys := by
  intro xs
  induction xs with
  | nil => intro ys c; simp [headersFrom, countAfter]
  | cons t ts ih =>
    intro ys c
    simp [headersFrom, countAfter, ih]

theorem headersFrom_length (word : String) :
    ∀ (ts : List String) (c : Nat), (headersFrom word c ts).length = ts.length := by
  intro ts
  induction ts with
  | nil => intro c; rfl
  | cons t rest ih => intro c; simp [headersFrom, ih]

theorem headersFrom_getD (word : String) :
    ∀ (titles : List String) (c i : Nat), i < titles.length →
      (headersFrom word c titles).getD i none =
        (if isSpecial (titles.getD i "") then none
         else if startsWithCI word (titles.getD i "") then none
         else some (word ++ " " ++
           toString (c + (titles.take (i+1)).countP (fun t => !isSpecial t)))) := by
  intro titles
  induction titles with
  | nil => intro c i hi; simp at hi
  | cons t ts ih =>
    intro c i hi
    cases i with
    | zero =>
      by_cases hsp : isSpecial t
      · simp [headersFrom, headerStep, hsp]
      · by_cases hsw : startsWithCI word t
        · simp [headersFrom, headerStep, hsp, hsw]
        · simp [headersFrom, headerStep, hsp, hsw, List.countP_cons]
    | succ j =>
      have hj : j < ts.length := by simpa using hi
      have hrec := ih (headerStep word c t).2 j hj
      simp only [headersFrom, List.getD_cons_succ, List.take_succ_cons,
        List.getD_cons_succ] at hrec ⊢
      rw [hrec, headerStep_snd]
      by_cases hsp : isSpecial t
      · simp [List.countP_cons, hsp]
      · simp only [List.countP_cons, hsp, if_neg]
        have harith : c + 1 + (ts.take (j+1)).countP (fun t => !isSpecial t) =
            c + ((ts.take (j+1)).countP (fun t => !isSpecial t) + 1) := by omega
        simp [hsp, harith]

/-- Claim C1, corrected part: on the English example chapter list of the
specification the language heuristic fires on the title Prologue, so the
header word is Capítulo; since the title Chapter 2: Escalation does not
start with Capítulo, a header line is drawn for it as well, and the drawn
headers differ from the ones the specification example predicts. -/
theorem chapterNumberingExampleFails :
    bookChapterHeaders exampleChaptersEN =
      [none, some "Capítulo 1", some "Capítulo 2", some "Capítulo 3"] ∧
    bookChapterHeaders exampleChaptersEN ≠
      [none, some "Chapter 1", none, some "Chapter 3"] := by
  exact ⟨by decide, by decide⟩

/-- Claim C1, amended: chapters are painted in array order with a running
count that starts at one and increments once per non special chapter; a
special chapter draws no numeric header and does not count; a non special
chapter draws the header of its running number unless its own title
already starts with the header word, in which case the header line is
suppressed but the chapter still counts.  On the English example list the
header word chosen by the heuristic is Capítulo, so the drawn headers are
none, Capítulo 1, Capítulo 2 and Capítulo 3. -/
theorem chapterNumberingAmended :
    (∀ (word : String) (titles : List String) (i : Nat), i < titles.length →
      (chapterHeaders word titles).getD i none =
        (if isSpecial (titles.getD i "") then none
         else if startsWithCI word (titles.getD i "") then none
         else some (word ++ " " ++
           toString ((titles.take (i+1)).countP (fun t => !isSpecial t))))) ∧
    bookChapterHeaders exampleChaptersEN =
      [none, some "Capítulo 1", some "Capítulo 2", some "Capítulo 3"] := by
  constructor
  · intro word titles i hi
    have := headersFrom_getD word titles 0 i hi
    simpa [chapterHeaders] using this
  · decide

/-- Witness for the amended claim C1 at a concrete input. -/
theorem chapterNumberingAmended_witness :
    (chapterHeaders "Chapter" ["The Start"]).getD 0 none = some "Chapter 1" :=
  (chapterNumberingAmended.1 "Chapter" ["The Start"] 0 (by decide)).trans (by decide)

theorem paintBody_filterMap (mTop mBot h lh mX : ℚ) :
    ∀ (lines : List String) (y : ℚ),
      (paintBody mTop mBot h lh mX y lines).filterMap textOfEvent = lines := by
  intro lines
  induction lines with
  | nil => intro y; simp [paintBody]
  | cons l rest ih =>
    intro y
    by_cases hc : h - mBot < y + lh
    · simp [paintBody, hc, textOfEvent, ih]
    · simp [paintBody, hc, textOfEvent, ih]

theorem paintBody_no_addPage (mTop mBot h lh mX : ℚ) :
    ∀ (lines : List String) (y : ℚ),
      PaintEvent.addPage ∉ paintBody mTop mBot h lh mX y lines →
      lines = [] ∨ y + lines.length * lh ≤ h - mBot := by
  intro lines
  induction lines with
  | nil => intro y _; exact Or.inl rfl
  | cons l rest ih =>
    intro y hmem
    by_cases hc : h - mBot < y + lh
    · exact absurd (by simp [paintBody, hc]) hmem
    · right
      have hmem2 : PaintEvent.addPage ∉ paintBody mTop mBot h lh mX (y + lh) rest := by
        intro hx
        exact hmem (by simp [paintBody, hc, hx])
      rcases ih (y + lh) hmem2 with hnil | hle
      · subst hnil
        simpa using not_lt.mp hc
      · simp only [List.length_cons]
        push_cast
        have hexp : y + ((rest.length : ℚ) + 1) * lh =
            (y + lh) + (rest.length : ℚ) * lh := by ring
        rw [hexp]
        exact hle

/-- Claim C2: the body flow writes every wrapped line exactly once, in
order, and the only page break trigger is the per line bottom margin
check; a body with more lines than fit between the top margin and the
bottom margin limit spans more than one page. -/
theorem paginationBodyFlow (mTop mBot h lh mX y : ℚ) (lines : List String) :
    (paintBody mTop mBot h lh mX y lines).filterMap textOfEvent = lines ∧
    (mTop ≤ y → h - mBot < mTop + lines.length * lh → 0 < lines.length →
      PaintEvent.addPage ∈ paintBody mTop mBot h lh mX y lines) := by
  constructor
  · exact paintBody_filterMap mTop mBot h lh mX lines y
  · intro hy hov hn
    by_contra hmem
    rcases paintBody_no_addPage mTop mBot h lh mX lines y hmem with hnil | hle
    · rw [hnil] at hn; simp at hn
    · have hmono : mTop + (lines.length : ℚ) * lh ≤ y + (lines.length : ℚ) * lh := by
        linarith
      linarith

/-- Witness for claim C2 at a concrete overflowing input. -/
theorem paginationBodyFlow_witness :
    PaintEvent.addPage ∈ paintBody 0 0 1 1 0 0 ["line one", "line two"] :=
  (paginationBodyFlow 0 0 1 1 0 0 ["line one", "line two"]).2 (le_refl 0)
    (by norm_num) (by decide)

/-- Claim C6: for every page size key, turning bleed on adds exactly five
millimeters to each of the three margins, a strict increase, while the
physical page dimensions passed to the document constructor do not
change. -/
theorem bleedShiftsMarginsOnly (ps : Option String) :
    marginTopOf ⟨ps, true⟩ = marginTopOf ⟨ps, false⟩ + 5 ∧
    marginBottomOf ⟨ps, true⟩ = marginBottomOf ⟨ps, false⟩ + 5 ∧
    marginXOf ⟨ps, true⟩ = marginXOf ⟨ps, false⟩ + 5 ∧
    marginTopOf ⟨ps, false⟩ < marginTopOf ⟨ps, true⟩ ∧
    marginBottomOf ⟨ps, false⟩ < marginBottomOf ⟨ps, true⟩ ∧
    marginXOf ⟨ps, false⟩ < marginXOf ⟨ps, true⟩ ∧
    openedPageSize ⟨ps, true⟩ = openedPageSize ⟨ps, false⟩ := by
  refine ⟨?_, ?_, ?_, ?_, ?_, ?_, ?_⟩ <;>
    simp [marginTopOf, marginBottomOf, marginXOf, openedPageSize,
      resolveFormat, formatKey]

/-- Claim C7: the image loader returns absence for an empty url without
consulting the network pipeline, returns absence when the pipeline throws
or when decoding resolves nothing, and in all cases returns a plain
optional value to its caller. -/
theorem loadImageFailsafe :
    (∀ f g : String → Except String (Option String),
      loadImage f "" = none ∧ loadImage f "" = loadImage g "") ∧
    (∀ (f : String → Except String (Option String)) (url e : String),
      f url = Except.error e → loadImage f url = none) ∧
    (∀ (f : String → Except String (Option String)) (url : String),
      f url = Except.ok none → loadImage f url = none) := by
  refine ⟨fun f g => ⟨by simp [loadImage], by simp [loadImage]⟩, ?_, ?_⟩
  · intro f url e hf
    by_cases hu : url = "" <;> simp [loadImage, hu, hf]
  · intro f url hf
    by_cases hu : url = "" <;> simp [loadImage, hu, hf]

/-- Witness for claim C7 at concrete failing pipelines. -/
theorem loadImageFailsafe_witness :
    loadImage (fun _ => Except.error "network failure") "http://a/b.jpg" = none ∧
    loadImage (fun _ => Except.ok none) "http://a/b.jpg" = none :=
  ⟨loadImageFailsafe.2.1 _ "http://a/b.jpg" "network failure" rfl,
   loadImageFailsafe.2.2 _ "http://a/b.jpg" rfl⟩

/-- Claim C8: an absent or unknown page size key resolves to the a4
catalog entry and the export proceeds with the a4 physical dimensions. -/
theorem unknownPageSizeFallsBackToA4 (config : ExportConfig)
    (h : ∀ s, config.pageSize = some s →
      s ≠ "pocket" ∧ s ≠ "letter" ∧ s ≠ "a4") :
    resolveFormat config = a4Format ∧ openedPageSize config = (210, 297) := by
  obtain ⟨ps, b⟩ := config
  cases ps with
  | none => exact ⟨rfl, rfl⟩
  | some s =>
    by_cases hs : s = ""
    · subst hs; exact ⟨rfl, rfl⟩
    · obtain ⟨h1, h2, h3⟩ := h s rfl
      have e1 : (s == "pocket") = false := by simpa using h1
      have e2 : (s == "letter") = false := by simpa using h2
      have e3 : (s == "a4") = false := by simpa using h3
      have hres : resolveFormat ⟨some s, b⟩ = a4Format := by
        simp [resolveFormat, formatKey, jsOr, formatsLookup, FORMATS,
          List.lookup, hs, e1, e2, e3]
      refine ⟨hres, ?_⟩
      simp only [openedPageSize, hres]
      rfl

/-- Witness for claim C8 at a concrete unknown key. -/
theorem unknownPageSizeFallsBackToA4_witness :
    resolveFormat ⟨some "tabloid", false⟩ = a4Format ∧
    openedPageSize ⟨some "tabloid", false⟩ = (210, 297) :=
  unknownPageSizeFallsBackToA4 ⟨some "tabloid", false⟩
    (fun s hs => by cases hs; exact ⟨by decide, by decide, by decide⟩)

/-- Claim C10: the special section test is an unanchored substring match,
so a special chapter placed anywhere in the list draws no numeric header
and leaves the numbering of the chapters after it unchanged; the title
The Introvert is special because it contains the keyword intro. -/
theorem specialIsSubstringMatch (word : String) (c : Nat) (xs ys : List String)
    (t : String) (h : isSpecial t = true) :
    (headersFrom word c (xs ++ t :: ys) =
      headersFrom word c xs ++ none ::
        (headersFrom word c (xs ++ ys)).drop xs.length) ∧
    isSpecial "The Introvert" = true := by
  constructor
  · have hstep : headerStep word (countAfter word c xs) t =
        (none, countAfter word c xs) := by simp [headerStep, h]
    rw [headersFrom_append word xs (t :: ys) c, headersFrom_append word xs ys c]
    have hdrop : (headersFrom word c xs ++
        headersFrom word (countAfter word c xs) ys).drop xs.length =
        headersFrom word (countAfter word c xs) ys := by
      rw [← headersFrom_length word xs c, List.drop_left]
    rw [hdrop]
    simp [headersFrom, hstep]
  · decide

/-- Witness for claim C10 at a concrete list around The Introvert. -/
theorem specialIsSubstringMatch_witness :
    headersFrom "Chapter" 0 (["The Start"] ++ "The Introvert" :: ["The End"]) =
      headersFrom "Chapter" 0 ["The Start"] ++ none ::
        (headersFrom "Chapter" 0 (["The Start"] ++ ["The End"])).drop 1 :=
  (specialIsSubstringMatch "Chapter" 0 ["The Start"] ["The End"] "The Introvert"
    (by decide)).1

theorem paintBody_filterMap_wrapArg (mTop mBot h lh mX : ℚ) :
    ∀ (lines : List String) (y : ℚ),
      (paintBody mTop mBot h lh mX y lines).filterMap wrapArgOfEvent = [] := by
  intro lines
  induction lines with
  | nil => intro y; simp [paintBody]
  | cons l rest ih =>
    intro y
    by_cases hc : h - mBot < y + lh <;>
      simp [paintBody, hc, wrapArgOfEvent, ih]

/-- Claim C4, counterexample: on a chapter whose content holds two
paragraphs separated by a blank line, the painter performs a single wrap
invocation carrying the entire content, not one invocation per
paragraph. -/
theorem bodyWrapNotPerParagraph :
    wrapArgs (paintChapter fetchNone splitNone a4Format 25 25 25
        "Chapter" 0 exampleChapterPara).1 =
      ["A Quiet Morning", "First paragraph.\n\nSecond paragraph."] ∧
    specParagraphs exampleChapterPara.content =
      ["First paragraph.", "Second paragraph."] ∧
    wrapArgs (paintChapter fetchNone splitNone a4Format 25 25 25
        "Chapter" 0 exampleChapterPara).1 ≠
      [exampleChapterPara.title] ++ specParagraphs exampleChapterPara.content := by
  have h1 : loadImage fetchNone (jsOr none "") = none := rfl
  have h2 : (headerStep "Chapter" 0 "A Quiet Morning").1 =
      some "Chapter 1" := by decide
  have hw : wrapArgs (paintChapter fetchNone splitNone a4Format 25 25 25
      "Chapter" 0 exampleChapterPara).1 =
      ["A Quiet Morning", "First paragraph.\n\nSecond paragraph."] := by
    simp [paintChapter, jsCase, h1, h2, wrapArgs, wrapArgOfEvent,
      paintBody_filterMap_wrapArg, exampleChapterPara]
  refine ⟨hw, by decide, ?_⟩
  rw [hw]
  decide

/-- Claim C4, amended: for every chapter the painter performs exactly two
wrap invocations, one on the title and one on the whole content string;
the content is handed to the wrap in a single invocation even when it
holds blank line boundaries, so paragraph splitting is delegated entirely
to the wrap function. -/
theorem bodyWrappedInOneCall (fetchRead : String → Except String (Option String))
    (split : String → ℚ → List String) (fmt : PageFormat)
    (mX mTop mBot : ℚ) (word : String) (count : Nat) (ch : Chapter) :
    wrapArgs (paintChapter fetchRead split fmt mX mTop mBot word count ch).1 =
      [ch.title, ch.content] := by
  cases himg : loadImage fetchRead (jsOr ch.imageUrl "") with
  | none =>
    cases hh : (headerStep word count ch.title).1 <;>
      simp [paintChapter, jsCase, himg, hh, wrapArgs, wrapArgOfEvent,
        paintBody_filterMap_wrapArg]
  | some s =>
    by_cases hs : s = "" <;> cases hh : (headerStep word count ch.title).1 <;>
      simp [paintChapter, jsCase, himg, hh, hs, wrapArgs, wrapArgOfEvent,
        paintBody_filterMap_wrapArg]

/-- Claim C5: each optional asset degrades to its documented fallback and
the export always reaches the final save: an absent cover image url paints
the solid dark cover background, an absent back cover image url paints the
plain dark back cover, the author page is emitted exactly when the author
image url or the bio is truthy, an absent author image url omits the
portrait, and the trace always ends with the save of the computed file
name. -/
theorem optionalAssetsFallback (fetchRead : String → Except String (Option String))
    (split : String → ℚ → List String) (book : EBook) (config : ExportConfig) :
    (book.coverImageUrl = none →
      PaintEvent.rectFill 15 23 42 0 0 (resolveFormat config).width
        (resolveFormat config).height ∈ coverEvents fetchRead split book config) ∧
    (book.backCoverImageUrl = none →
      PaintEvent.rectFill 20 20 20 0 0 (resolveFormat config).width
        (resolveFormat config).height ∈ backCoverEvents fetchRead split book config) ∧
    (authorPageEvents fetchRead split book config = [] ↔
      (jsTruthy book.authorImageUrl || jsTruthy book.authorBio) = false) ∧
    (book.authorImageUrl = none →
      ∀ e ∈ authorPageEvents fetchRead split book config, isImageEvent e = false) ∧
    (generatePDF fetchRead split book config).getLast? =
      some (PaintEvent.save (saveFilename book config)) := by
  refine ⟨?_, ?_, ?_, ?_, ?_⟩
  · intro hcov
    simp [coverEvents, hcov, jsOr, loadImage, jsCase]
  · intro hback
    simp [backCoverEvents, hback, jsOr, loadImage, jsCase]
  · by_cases hcond : jsTruthy book.authorImageUrl || jsTruthy book.authorBio <;>
      simp [authorPageEvents, hcond]
  · intro himg e he
    have htn : jsTruthy none = false := rfl
    by_cases hcond : (jsTruthy book.authorImageUrl || jsTruthy book.authorBio) = true
    · have hbio : jsTruthy book.authorBio = true := by
        simpa [himg, htn] using hcond
      simp [authorPageEvents, himg, htn, hbio, jsOr, loadImage, jsCase] at he
      rcases he with rfl | rfl | rfl | rfl <;> rfl
    · have hcond2 : (jsTruthy book.authorImageUrl || jsTruthy book.authorBio) = false := by
        simpa using hcond
      simp [authorPageEvents, hcond2] at he
  · have hsplit : generatePDF fetchRead split book config =
        (coverEvents fetchRead split book config
          ++ titlePageEvents book config
          ++ authorPageEvents fetchRead split book config
          ++ paintChapters fetchRead split (resolveFormat config)
              (marginXOf config) (marginTopOf config) (marginBottomOf config)
              (chapterWord book.chapters) 0 book.chapters
          ++ backCoverEvents fetchRead split book config)
          ++ [PaintEvent.save (saveFilename book config)] := by
      simp [generatePDF, List.append_assoc]
    rw [hsplit, List.getLast?_concat]

/-- Witness for claim C5 at a concrete book lacking all optional assets. -/
theorem optionalAssetsFallback_witness :
    PaintEvent.rectFill 15 23 42 0 0 (resolveFormat config0).width
      (resolveFormat config0).height ∈
        coverEvents fetchNone splitNone book0 config0 ∧
    PaintEvent.rectFill 20 20 20 0 0 (resolveFormat config0).width
      (resolveFormat config0).height ∈
        backCoverEvents fetchNone splitNone book0 config0 ∧
    (∀ e ∈ authorPageEvents fetchNone splitNone book0 config0,
      isImageEvent e = false) :=
  ⟨(optionalAssetsFallback fetchNone splitNone book0 config0).1 rfl,
   (optionalAssetsFallback fetchNone splitNone book0 config0).2.1 rfl,
   (optionalAssetsFallback fetchNone splitNone book0 config0).2.2.2.1 rfl⟩

theorem toNat_ofNat_valid (n : Nat) (h : n < 55296) : (Char.ofNat n).toNat = n := by
  have hv : n.isValidChar := Or.inl h
  rw [Char.ofNat, dif_pos hv]
  rfl

theorem charCommute (c : Char) :
    jsToLower (keepAlnumCI c) = keepLowerAlnum (jsToLower c) := by
  by_cases hU : 65 ≤ c.toNat ∧ c.toNat ≤ 90
  · have hkeep : keepAlnumCI c = c := by
      unfold keepAlnumCI
      rw [if_pos (Or.inr (Or.inl hU))]
    have hlow : jsToLower c = Char.ofNat (c.toNat + 32) := by
      unfold jsToLower
      rw [if_pos (Or.inl hU)]
    have ht : (Char.ofNat (c.toNat + 32)).toNat = c.toNat + 32 :=
      toNat_ofNat_valid _ (by omega)
    rw [hkeep, hlow]
    unfold keepLowerAlnum
    rw [if_pos (Or.inl (by omega))]
  · by_cases hacc : c.toNat = 205 ∨ c.toNat = 211
    · have hkeep : keepAlnumCI c = '_' := by
        unfold keepAlnumCI
        rw [if_neg (by omega)]
      have hlow : jsToLower c = Char.ofNat (c.toNat + 32) := by
        unfold jsToLower
        rw [if_pos (Or.inr hacc)]
      have ht : (Char.ofNat (c.toNat + 32)).toNat = c.toNat + 32 :=
        toNat_ofNat_valid _ (by omega)
      rw [hkeep, hlow]
      unfold keepLowerAlnum
      rw [if_neg (by omega)]
      rfl
    · have hlow : jsToLower c = c := by
        unfold jsToLower
        rw [if_neg (by omega)]
      by_cases hK : (97 ≤ c.toNat ∧ c.toNat ≤ 122) ∨ (48 ≤ c.toNat ∧ c.toNat ≤ 57)
      · have hkeep : keepAlnumCI c = c := by
          unfold keepAlnumCI
          rw [if_pos (by omega)]
        rw [hkeep, hlow]
        unfold keepLowerAlnum
        rw [if_pos (by omega)]
      · have hkeep : keepAlnumCI c = '_' := by
          unfold keepAlnumCI
          rw [if_neg (by omega)]
        rw [hkeep, hlow]
        unfold keepLowerAlnum
        rw [if_neg (by omega)]
        rfl

theorem safeTitle_eq_specSlug (t : String) : safeTitle t = specSlug t := by
  unfold safeTitle specSlug
  rw [List.map_map, List.map_map]
  have hfun : jsToLower ∘ keepAlnumCI = keepLowerAlnum ∘ jsToLower :=
    funext charCommute
  rw [hfun]

/-- Claim C9: the saved file is named slug underscore page size dot pdf,
where the slug of the title agrees with the specification reading of
lowering the case and replacing every character outside lower case
letters and digits with an underscore, an absent title defaults to book,
and the documented example title maps to the documented stem. -/
theorem slugFilename :
    (∀ (book : EBook) (config : ExportConfig),
      saveFilename book config =
        specSlug book.title ++ "_" ++ formatKey config ++ ".pdf") ∧
    safeTitle "My, Book! 2024" = "my__book__2024" ∧
    safeTitle "" = "book" := by
  refine ⟨fun book config => ?_, by decide, by decide⟩
  unfold saveFilename
  rw [safeTitle_eq_specSlug]

theorem beginsWith_iff : ∀ (n h : List Char),
    beginsWith n h = true ↔ ∃ t, h = n ++ t := by
  intro n
  induction n with
  | nil =>
    intro h
    exact iff_of_true rfl ⟨h, rfl⟩
  | cons a as ih =>
    intro h
    cases h with
    | nil => simp [beginsWith]
    | cons b bs =>
      simp only [beginsWith, Bool.and_eq_true, beq_iff_eq, ih, List.cons_append,
        List.cons.injEq]
      constructor
      · rintro ⟨rfl, t, rfl⟩
        exact ⟨t, rfl, rfl⟩
      · rintro ⟨t, rfl, rfl⟩
        exact ⟨rfl, t, rfl⟩

theorem containsSeq_iff : ∀ (n h : List Char),
    containsSeq n h = true ↔ ∃ s t, h = s ++ n ++ t := by
  intro n h
  induction h with
  | nil =>
    simp only [containsSeq, beginsWith_iff]
    constructor
    · rintro ⟨t, ht⟩
      exact ⟨[], t, by simpa using ht⟩
    · rintro ⟨s, t, hst⟩
      refine ⟨t, ?_⟩
      cases s with
      | nil => simpa using hst
      | cons x xs => simp at hst
  | cons c cs ih =>
    simp only [containsSeq, Bool.or_eq_true, beginsWith_iff, ih]
    constructor
    · rintro (⟨t, ht⟩ | ⟨s, t, rfl⟩)
      · exact ⟨[], t, by simpa using ht⟩
      · exact ⟨c :: s, t, rfl⟩
    · rintro ⟨s, t, hst⟩
      cases s with
      | nil => exact Or.inl ⟨t, by simpa using hst⟩
      | cons x xs =>
        simp only [List.cons_append, List.cons.injEq] at hst
        exact Or.inr ⟨xs, t, hst.2⟩

theorem mapEqAppendSplit (f : Char → Char) :
    ∀ (l : List Char) (s t : List Char), l.map f = s ++ t →
      ∃ l₁ l₂, l = l₁ ++ l₂ ∧ l₁.map f = s ∧ l₂.map f = t := by
  intro l
  induction l with
  | nil =>
    intro s t h
    rw [List.map_nil] at h
    rcases List.append_eq_nil.mp h.symm with ⟨rfl, rfl⟩
    exact ⟨[], [], rfl, rfl, rfl⟩
  | cons a l ih =>
    intro s t h
    cases s with
    | nil => exact ⟨[], a :: l, rfl, rfl, by simpa using h⟩
    | cons b s2 =>
      simp only [List.map_cons, List.cons_append, List.cons.injEq] at h
      obtain ⟨l₁, l₂, rfl, hm1, hm2⟩ := ih s2 t h.2
      exact ⟨a :: l₁, l₂, rfl, by simp [hm1, h.1], hm2⟩

theorem escChar_eq_self_of_lower (c d : Char) (hlow : jsToLower c = d)
    (hd : escChar d = [d]) : escChar c = [c] := by
  by_cases hQ : (65 ≤ c.toNat ∧ c.toNat ≤ 90) ∨ c.toNat = 205 ∨ c.toNat = 211
  · have e34 : c.toNat ≠ 34 := by omega
    have e92 : c.toNat ≠ 92 := by omega
    have e8 : c.toNat ≠ 8 := by omega
    have e9 : c.toNat ≠ 9 := by omega
    have e10 : c.toNat ≠ 10 := by omega
    have e12 : c.toNat ≠ 12 := by omega
    have e13 : c.toNat ≠ 13 := by omega
    have e32 : ¬ c.toNat < 32 := by omega
    simp [escChar, e34, e92, e8, e9, e10, e12, e13, e32]
  · have : jsToLower c = c := by
      unfold jsToLower
      rw [if_neg hQ]
    rw [this] at hlow
    rw [hlow]
    exact hd

theorem escList_append : ∀ (a b : List Char),
    escList (a ++ b) = escList a ++ escList b := by
  intro a b
  induction a with
  | nil => rfl
  | cons c cs ih => simp [escList, ih]

theorem escList_clean : ∀ (l : List Char),
    (∀ c ∈ l, escChar c = [c]) → escList l = l := by
  intro l h
  induction l with
  | nil => rfl
  | cons c cs ih =>
    have hc := h c (List.mem_cons_self c cs)
    have hcs := ih (fun x hx => h x (List.mem_cons_of_mem c hx))
    simp [escList, hc, hcs]

theorem containsSeq_extend (n a b h : List Char)
    (hh : containsSeq n h = true) : containsSeq n (a ++ h ++ b) = true := by
  rw [containsSeq_iff] at hh ⊢
  obtain ⟨s, t, rfl⟩ := hh
  exact ⟨a ++ s, t ++ b, by simp [List.append_assoc]⟩

theorem containsSeq_map_escList (needle : List Char)
    (hcl : ∀ d ∈ needle, escChar d = [d]) (l : List Char)
    (h : containsSeq needle (l.map jsToLower) = true) :
    containsSeq needle ((escList l).map jsToLower) = true := by
  rw [containsSeq_iff] at h ⊢
  obtain ⟨s, t, hst⟩ := h
  obtain ⟨l₁, rest, rfl, hm1, hmr⟩ :=
    mapEqAppendSplit jsToLower l s (needle ++ t)
      (by rw [hst, List.append_assoc])
  obtain ⟨l₂, l₃, rfl, hm2, hm3⟩ := mapEqAppendSplit jsToLower rest needle t hmr
  have hcl2 : ∀ c ∈ l₂, escChar c = [c] := by
    intro c hc
    have hmem : jsToLower c ∈ needle := by
      rw [← hm2]
      exact List.mem_map_of_mem jsToLower hc
    exact escChar_eq_self_of_lower c (jsToLower c) rfl (hcl _ hmem)
  rw [escList_append, escList_append, escList_clean l₂ hcl2]
  exact ⟨(escList l₁).map jsToLower, (escList l₃).map jsToLower,
    by simp [hm2, List.append_assoc]⟩

theorem jsonStringifyChapter_embed (ch : Chapter) :
    ∃ a b : List Char,
      (jsonStringifyChapter ch).data = a ++ escList ch.title.data ++ b := by
  refine ⟨("\x7b\"id\":\"" ++ jsonEscape ch.id ++ "\",\"title\":\"").data,
    (("\",\"content\":\"" ++ jsonEscape ch.content ++ "\"")
      ++ (match ch.summary with
          | none => ""
          | some s => ",\"summary\":\"" ++ jsonEscape s ++ "\"")
      ++ (match ch.imagePrompt with
          | none => ""
          | some s => ",\"imagePrompt\":\"" ++ jsonEscape s ++ "\"")
      ++ (match ch.imageUrl with
          | none => ""
          | some s => ",\"imageUrl\":\"" ++ jsonEscape s ++ "\"")
      ++ "\x7d").data, ?_⟩
  simp [jsonStringifyChapter, jsonEscape, List.append_assoc]

theorem jsonArrayJoin_embed : ∀ (l : List String) (x : String), x ∈ l →
    ∃ a b : List Char, (jsonArrayJoin l).data = a ++ x.data ++ b := by
  intro l
  induction l with
  | nil => intro x hx; simp at hx
  | cons s rest ih =>
    intro x hx
    cases rest with
    | nil =>
      have hxs : x = s := by simpa using hx
      subst hxs
      exact ⟨[], [], by simp [jsonArrayJoin]⟩
    | cons s2 r2 =>
      rcases List.mem_cons.mp hx with rfl | hx2
      · exact ⟨[], (",".data ++ (jsonArrayJoin (s2 :: r2)).data),
          by simp [jsonArrayJoin, List.append_assoc]⟩
      · obtain ⟨a, b, hab⟩ := ih x hx2
        exact ⟨s.data ++ ",".data ++ a, b,
          by simp [jsonArrayJoin, hab, List.append_assoc]⟩

theorem isSpanish_of_title (chs : List Chapter) (ch : Chapter) (hm : ch ∈ chs)
    (needle : String) (hn : needle ∈ spanishNeedles)
    (hcl : ∀ d ∈ needle.data, escChar d = [d])
    (h : containsCI needle ch.title = true) : isSpanish chs = true := by
  unfold isSpanish matchesAnyCI
  rw [List.any_eq_true]
  refine ⟨needle, hn, ?_⟩
  unfold containsCI lowerList
  obtain ⟨a1, b1, h1⟩ := jsonStringifyChapter_embed ch
  obtain ⟨a2, b2, h2⟩ := jsonArrayJoin_embed (chs.map jsonStringifyChapter)
    (jsonStringifyChapter ch) (List.mem_map_of_mem _ hm)
  have h3 : (jsonStringifyChapters chs).data =
      ("[".data ++ a2 ++ a1) ++ escList ch.title.data
        ++ (b1 ++ b2 ++ "]".data) := by
    simp [jsonStringifyChapters, h2, h1, List.append_assoc]
  rw [h3]
  have hmid : containsSeq needle.data ((escList ch.title.data).map jsToLower)
      = true :=
    containsSeq_map_escList needle.data hcl ch.title.data h
  have hext := containsSeq_extend needle.data
    (("[".data ++ a2 ++ a1).map jsToLower)
    ((b1 ++ b2 ++ "]".data).map jsToLower)
    ((escList ch.title.data).map jsToLower) hmid
  simpa [List.map_append, List.append_assoc] using hext

/-- Claim C3, counterexample: a book whose single chapter has the English
title The Start and the content la introducción selects Capítulo as the
header word even though no chapter title matches the Spanish title
patterns of the claim, because the code scans the JSON serialization of
the whole chapters array rather than the titles. -/
theorem languageHeuristicExampleFails :
    chapterWord exampleChaptersES = "Capítulo" ∧
    exampleChaptersES.all (fun ch => !titleMatchesSpecSpanish ch.title)
      = true := by
  exact ⟨by decide, by decide⟩

/-- Claim C3, amended: the header word is Capítulo exactly when the regex
with branches capitulo with optional accent, introducc, and prol with
optional accent matches the JSON serialization of the entire chapters
array, titles and contents and all other fields included, and Chapter
otherwise; in particular a chapter title matching the accented patterns
of the specification still selects Capítulo for the whole document. -/
theorem languageHeuristicAmended :
    (∀ chs : List Chapter,
      (chapterWord chs = "Capítulo" ↔ isSpanish chs = true) ∧
      (chapterWord chs = "Chapter" ↔ isSpanish chs = false)) ∧
    (∀ (chs : List Chapter) (ch : Chapter), ch ∈ chs →
      titleMatchesSpecSpanish ch.title = true →
      chapterWord chs = "Capítulo") := by
  constructor
  · intro chs
    by_cases h : isSpanish chs = true
    · exact ⟨by simp [chapterWord, h], by simp [chapterWord, h]⟩
    · have hf : isSpanish chs = false := by simpa using h
      exact ⟨by simp [chapterWord, hf], by simp [chapterWord, hf]⟩
  · intro chs ch hm ht
    unfold titleMatchesSpecSpanish matchesAnyCI at ht
    rw [List.any_eq_true] at ht
    obtain ⟨needle, hn, hc⟩ := ht
    have hspan : isSpanish chs = true := by
      rcases List.mem_cons.mp hn with rfl | hn2
      · exact isSpanish_of_title chs ch hm "capítulo" (by decide) (by decide) hc
      rcases List.mem_cons.mp hn2 with rfl | hn3
      · exact isSpanish_of_title chs ch hm "introducc" (by decide) (by decide) hc
      rcases List.mem_cons.mp hn3 with rfl | hn4
      · exact isSpanish_of_title chs ch hm "pról" (by decide) (by decide) hc
      · simp at hn4
    simp [chapterWord, hspan]

/-- Witness for the amended claim C3 at a concrete Spanish titled book. -/
theorem languageHeuristicAmended_witness :
    chapterWord exampleChaptersTitleES = "Capítulo" :=
  languageHeuristicAmended.2 exampleChaptersTitleES
    ⟨"c9", "Capítulo Uno", "", none, none, none⟩ (by decide) (by decide)

end LuminaBook
